import Mathlib

/-!
Verification development for the unit-paths CLI verb and its path-resolution
core. The CLI caller (verb_unit_paths in src/analyze/analyze-unit-paths.c) is
embedded from the source. The path-resolution core (lookup_paths_init and the
machinery behind it) is not part of the reviewed source tree, so its
components are modelled from the specification, as marked on each definition.
-/

namespace UnitPaths

/-- Modelled from the spec: the closed scope enumeration (section 3); the real
definition lives in the external path-lookup routine not present in src/. -/
inductive Scope where
  | System
  | User
  | Global
deriving DecidableEq, Repr

/-- Modelled from the spec: the directory-tier tags (section 3); the real
definition lives in the external path-lookup routine not present in src/. -/
inductive DirectoryTier where
  | RuntimeGenerated
  | AdministratorOverride
  | VendorSupplied
  | PersistentConfig
  | GeneratorOutput
  | EnvironmentInjected
deriving DecidableEq, Repr

/-- Modelled from the spec: a candidate path paired with its tier (section 3). -/
structure CandidatePath where
  path : String
  tier : DirectoryTier
deriving DecidableEq, Repr

/-- Modelled from the spec: the environment, injected as a read-only record
(section 9): the replace and extra override variables, the user
configuration-home variable, and the user home directory. -/
structure Env where
  replaceVar : Option String
  extraVar : Option String
  configHome : Option String
  home : String
deriving DecidableEq, Repr

/-- Split a character list on the slash separator; empty segments are kept
(they are dropped later during canonicalization). -/
def splitSlash : List Char → List (List Char)
  | [] => [[]]
  | c :: rest =>
    if c = '/' then [] :: splitSlash rest
    else
      match splitSlash rest with
      | [] => [[c]]
      | s :: ss => (c :: s) :: ss

/-- One step of syntactic canonicalization over path segments: drop empty
segments and single-dot segments, pop the previous segment on a double-dot
segment, append any other segment. -/
def canonStep (acc : List (List Char)) (seg : List Char) : List (List Char) :=
  if seg = [] ∨ seg = ['.'] then acc
  else if seg = ['.', '.'] then acc.dropLast
  else acc ++ [seg]

/-- Canonical segment sequence of a raw path given as a character list. -/
def canonData (l : List Char) : List (List Char) :=
  (splitSlash l).foldl canonStep []

/-- Render a canonical segment sequence as an absolute path character list. -/
def renderAbs (segs : List (List Char)) : List Char :=
  if segs = [] then ['/']
  else (segs.map (fun s => '/' :: s)).flatten

/-- Modelled from the spec: syntactic canonicalization of one path (section
4.3) — collapse redundant separators, resolve single-dot segments, resolve
double-dot segments purely at the string level without touching the
filesystem; the real routine is external to src/. -/
def canon (p : String) : String :=
  String.mk (renderAbs (canonData p.data))

/-- Keep the first occurrence of each entry, dropping entries already seen. -/
def dedupFirst (seen : List String) : List String → List String
  | [] => []
  | p :: rest =>
    if p ∈ seen then dedupFirst seen rest
    else p :: dedupFirst (p :: seen) rest

/-- Modelled from the spec: the path normalizer/deduplicator (section 4.3) —
canonicalize each entry, then keep the first occurrence of each canonical
form, preserving first-seen order; the real routine is external to src/. -/
def normalize (l : List String) : List String :=
  dedupFirst [] (l.map canon)

/-- Split a character list on the colon path-list separator; empty elements
are kept here and dropped by splitPathList. -/
def splitColon : List Char → List (List Char)
  | [] => [[]]
  | c :: rest =>
    if c = ':' then [] :: splitColon rest
    else
      match splitColon rest with
      | [] => [[c]]
      | s :: ss => (c :: s) :: ss

/-- Modelled from the spec: split an override-variable value on the path-list
separator, dropping empty elements (section 4.1); external to src/. -/
def splitPathList (v : String) : List String :=
  ((splitColon v.data).map String.mk).filter (fun s => s != "")

/-- Modelled from the spec: result of the environment override parser
(section 4.1). -/
structure OverrideResult where
  replace : Option (List String)
  extra : List String
deriving DecidableEq, Repr

/-- Modelled from the spec: the environment override parser (section 4.1) —
a set and non-empty replace variable fully replaces the computed set; the
extra variable is split the same way and prepended; absence is no override;
external to src/. -/
def parseOverrides (env : Env) : OverrideResult :=
  { replace :=
      match env.replaceVar with
      | some v => if v = "" then none else some (splitPathList v)
      | none => none
    extra :=
      match env.extraVar with
      | some v => splitPathList v
      | none => [] }

/-- Modelled from the spec: the user configuration home, falling back to the
conventional subdirectory of the home directory when the configuration-home
variable is unset (section 4.2); external to src/. -/
def userConfigHome (env : Env) : String :=
  match env.configHome with
  | some c => c
  | none => env.home ++ "/.config"

/-- Modelled from the spec: the scope directory enumerator (section 4.2) —
the fixed, ordered candidate list per scope, each path joined onto the root
argument; directory names are illustrative placeholders as the spec allows;
the real routine is external to src/. -/
def enumerate (scope : Scope) (root : String) (env : Env) : List CandidatePath :=
  match scope with
  | .System =>
      [⟨root ++ "/etc/units/system", .AdministratorOverride⟩,
       ⟨root ++ "/run/units/system", .RuntimeGenerated⟩,
       ⟨root ++ "/run/units/generator", .GeneratorOutput⟩,
       ⟨root ++ "/run/units/generator.late", .GeneratorOutput⟩,
       ⟨root ++ "/usr/local/lib/units/system", .VendorSupplied⟩,
       ⟨root ++ "/usr/lib/units/system", .PersistentConfig⟩]
  | .User =>
      [⟨userConfigHome env ++ "/units/user", .AdministratorOverride⟩,
       ⟨root ++ "/run/user/units", .RuntimeGenerated⟩,
       ⟨root ++ "/run/user/units/generator", .GeneratorOutput⟩,
       ⟨root ++ "/usr/local/lib/units/user", .VendorSupplied⟩,
       ⟨root ++ "/usr/lib/units/user", .PersistentConfig⟩]
  | .Global =>
      [⟨root ++ "/etc/units/global", .AdministratorOverride⟩,
       ⟨root ++ "/usr/local/lib/units/global", .VendorSupplied⟩,
       ⟨root ++ "/usr/lib/units/global", .PersistentConfig⟩]

/-- Modelled from the spec: the path set builder (section 4.4) — replace-mode
override short-circuits the enumerator; otherwise extra override entries are
prepended ahead of the enumeration; the flattened sequence is normalized and
deduplicated; the real routine is external to src/. -/
def resolve (scope : Scope) (root : String) (env : Env) : List String :=
  let ov := parseOverrides env
  match ov.replace with
  | some l => normalize l
  | none => normalize (ov.extra ++ (enumerate scope root env).map (fun c => c.path))

/-- The LookupPaths structure as used by the caller: only its search_path
member is read there. -/
structure LookupPaths where
  search_path : List String
deriving DecidableEq, Repr

/-- Observable outcome of one invocation of the verb: its return value, the
lines written to standard output by puts, whether log_error_errno emitted a
message, and how many times the scoped cleanup released the owned structure. -/
structure VerbOutcome where
  exitCode : Int
  stdout : List String
  loggedError : Bool
  freeCount : Nat
deriving DecidableEq, Repr

/-- Embedding of verb_unit_paths from src/src/analyze/analyze-unit-paths.c.
The outcome of the external lookup_paths_init call is passed in as the return
code r and the filled structure paths. If r is negative the function logs the
error and returns r; otherwise it writes each entry of paths.search_path as
one line and returns 0. The cleanup attribute releases the owned structure
exactly once on either return path. -/
def verb_unit_paths (r : Int) (paths : LookupPaths) : VerbOutcome :=
  if r < 0 then
    { exitCode := r, stdout := [], loggedError := true, freeCount := 1 }
  else
    { exitCode := 0, stdout := paths.search_path, loggedError := false, freeCount := 1 }

/-- An environment with no override variables set, used as a concrete sample. -/
def emptyEnv : Env :=
  { replaceVar := none, extraVar := none, configHome := none, home := "/home/u" }

/-- An environment with only the replace variable set, used as a sample. -/
def replaceEnv : Env :=
  { replaceVar := some "/a:/b", extraVar := none, configHome := none, home := "/home/u" }

/-- An environment with only the extra variable set, used as a sample. -/
def extraEnv : Env :=
  { replaceVar := none, extraVar := some "/x", configHome := none, home := "/home/u" }

/-- A segment as produced by canonicalization: nonempty, not a dot segment,
not a double-dot segment, and containing no slash. -/
def PlainSeg (s : List Char) : Prop :=
  s ≠ [] ∧ s ≠ ['.'] ∧ s ≠ ['.', '.'] ∧ '/' ∉ s

lemma splitSlash_append_slash (s t : List Char) (hs : '/' ∉ s) :
    splitSlash (s ++ '/' :: t) = s :: splitSlash t := by
  induction s with
  | nil => simp [splitSlash]
  | cons c s ih =>
    have hc : c ≠ '/' := fun h => hs (h ▸ List.mem_cons_self c s)
    have hs' : '/' ∉ s := fun h => hs (List.mem_cons_of_mem c h)
    have hstep : splitSlash ((c :: s) ++ '/' :: t)
        = match splitSlash (s ++ '/' :: t) with
          | [] => [[c]]
          | s0 :: ss => (c :: s0) :: ss := by
      simp [splitSlash, hc]
    rw [hstep, ih hs']

lemma splitSlash_no_slash (s : List Char) (hs : '/' ∉ s) :
    splitSlash s = [s] := by
  induction s with
  | nil => rfl
  | cons c s ih =>
    have hc : c ≠ '/' := fun h => hs (h ▸ List.mem_cons_self c s)
    have hs' : '/' ∉ s := fun h => hs (List.mem_cons_of_mem c h)
    simp only [splitSlash, if_neg hc, ih hs']

lemma splitSlash_render_chain (s : List Char) (segs : List (List Char))
    (hs : '/' ∉ s) (hsegs : ∀ x ∈ segs, '/' ∉ x) :
    splitSlash (s ++ (segs.map (fun x => '/' :: x)).flatten) = s :: segs := by
  induction segs generalizing s with
  | nil => simpa using splitSlash_no_slash s hs
  | cons s2 rest ih =>
    have h2 : '/' ∉ s2 := hsegs s2 (List.mem_cons_self s2 rest)
    have hrest : ∀ x ∈ rest, '/' ∉ x := fun x hx => hsegs x (List.mem_cons_of_mem s2 hx)
    have : s ++ ((s2 :: rest).map (fun x => '/' :: x)).flatten
        = s ++ '/' :: (s2 ++ (rest.map (fun x => '/' :: x)).flatten) := by
      simp
    rw [this, splitSlash_append_slash s _ hs, ih s2 h2 hrest]

lemma splitSlash_renderAbs (segs : List (List Char))
    (h1 : ∀ x ∈ segs, x ≠ []) (h2 : ∀ x ∈ segs, '/' ∉ x) :
    splitSlash (renderAbs segs) = [] :: segs ∨ segs = [] := by
  cases segs with
  | nil => right; rfl
  | cons s rest =>
    left
    have hs : '/' ∉ s := h2 s (List.mem_cons_self s rest)
    have hrest : ∀ x ∈ rest, '/' ∉ x := fun x hx => h2 x (List.mem_cons_of_mem s hx)
    have hne : (s :: rest : List (List Char)) ≠ [] := by simp
    have : renderAbs (s :: rest) = '/' :: (s ++ (rest.map (fun x => '/' :: x)).flatten) := by
      simp [renderAbs]
    rw [this]
    have hstep : splitSlash ('/' :: (s ++ (rest.map (fun x => '/' :: x)).flatten))
        = [] :: splitSlash (s ++ (rest.map (fun x => '/' :: x)).flatten) := by
      simp [splitSlash]
    rw [hstep, splitSlash_render_chain s rest hs hrest]

lemma foldl_canonStep_plain (segs : List (List Char)) (acc : List (List Char))
    (h : ∀ x ∈ segs, PlainSeg x) :
    List.foldl canonStep acc segs = acc ++ segs := by
  induction segs generalizing acc with
  | nil => simp
  | cons s rest ih =>
    obtain ⟨hne, hdot, hddot, _⟩ := h s (List.mem_cons_self s rest)
    have hrest : ∀ x ∈ rest, PlainSeg x := fun x hx => h x (List.mem_cons_of_mem s hx)
    have hstep : canonStep acc s = acc ++ [s] := by
      simp only [canonStep]
      rw [if_neg (by simp [hne, hdot]), if_neg hddot]
    simp only [List.foldl_cons, hstep, ih _ hrest, List.append_assoc, List.singleton_append]

lemma mem_dropLast {α : Type} {x : α} {l : List α} (h : x ∈ l.dropLast) : x ∈ l :=
  (List.dropLast_sublist l).subset h

lemma canonStep_invariant (acc : List (List Char)) (seg : List Char)
    (hacc : ∀ x ∈ acc, PlainSeg x) (hseg : '/' ∉ seg) :
    ∀ x ∈ canonStep acc seg, PlainSeg x := by
  intro x hx
  simp only [canonStep] at hx
  by_cases h1 : seg = [] ∨ seg = ['.']
  · rw [if_pos h1] at hx; exact hacc x hx
  · rw [if_neg h1] at hx
    by_cases h2 : seg = ['.', '.']
    · rw [if_pos h2] at hx; exact hacc x (mem_dropLast hx)
    · rw [if_neg h2] at hx
      rcases List.mem_append.1 hx with h | h
      · exact hacc x h
      · have hx' : x = seg := by simpa using h
        subst hx'
        exact ⟨fun h => h1 (Or.inl h), fun h => h1 (Or.inr h), h2, hseg⟩

lemma foldl_canonStep_invariant (segs : List (List Char)) (acc : List (List Char))
    (hacc : ∀ x ∈ acc, PlainSeg x) (hsegs : ∀ s ∈ segs, '/' ∉ s) :
    ∀ x ∈ List.foldl canonStep acc segs, PlainSeg x := by
  induction segs generalizing acc with
  | nil => simpa using hacc
  | cons s rest ih =>
    intro x hx
    have hs : '/' ∉ s := hsegs s (List.mem_cons_self s rest)
    have hrest : ∀ t ∈ rest, '/' ∉ t := fun t ht => hsegs t (List.mem_cons_of_mem s ht)
    exact ih (canonStep acc s) (canonStep_invariant acc s hacc hs) hrest x hx

lemma splitSlash_mem_no_slash (l : List Char) : ∀ s ∈ splitSlash l, '/' ∉ s := by
  induction l with
  | nil =>
    intro s hs
    simp only [splitSlash] at hs
    simp only [List.mem_singleton] at hs
    subst hs; simp
  | cons c rest ih =>
    intro s hs
    by_cases hc : c = '/'
    · simp only [splitSlash, if_pos hc] at hs
      rcases List.mem_cons.1 hs with h | h
      · subst h; simp
      · exact ih s h
    · simp only [splitSlash, if_neg hc] at hs
      cases heq : splitSlash rest with
      | nil =>
        rw [heq] at hs
        simp only [List.mem_singleton] at hs
        subst hs
        intro hmem
        rcases List.mem_cons.1 hmem with h | h
        · exact hc h.symm
        · exact absurd h (List.not_mem_nil '/')
      | cons s0 ss =>
        rw [heq] at hs
        rcases List.mem_cons.1 hs with h | h
        · subst h
          intro hmem
          rcases List.mem_cons.1 hmem with h | h
          · exact hc h.symm
          · exact ih s0 (heq ▸ List.mem_cons_self s0 ss) h
        · exact ih s (heq ▸ List.mem_cons_of_mem s0 h)

lemma canonData_plain (l : List Char) : ∀ x ∈ canonData l, PlainSeg x :=
  foldl_canonStep_invariant (splitSlash l) [] (by simp) (splitSlash_mem_no_slash l)

lemma canonData_renderAbs (segs : List (List Char)) (h : ∀ x ∈ segs, PlainSeg x) :
    canonData (renderAbs segs) = segs := by
  rcases splitSlash_renderAbs segs (fun x hx => (h x hx).1) (fun x hx => (h x hx).2.2.2) with
    hsplit | hnil
  · unfold canonData
    rw [hsplit]
    have : List.foldl canonStep [] ([] :: segs) = List.foldl canonStep [] segs := by
      simp [canonStep]
    rw [this, foldl_canonStep_plain segs [] h]
    simp
  · subst hnil
    rfl

lemma canon_idem (p : String) : canon (canon p) = canon p := by
  unfold canon
  have hdata : (String.mk (renderAbs (canonData p.data))).data
      = renderAbs (canonData p.data) := rfl
  rw [hdata, canonData_renderAbs (canonData p.data) (canonData_plain p.data)]

lemma mem_dedupFirst {x : String} (seen l : List String) (h : x ∈ dedupFirst seen l) :
    x ∈ l ∧ x ∉ seen := by
  induction l generalizing seen with
  | nil => simp [dedupFirst] at h
  | cons p rest ih =>
    by_cases hp : p ∈ seen
    · rw [dedupFirst, if_pos hp] at h
      obtain ⟨h1, h2⟩ := ih seen h
      exact ⟨List.mem_cons_of_mem p h1, h2⟩
    · rw [dedupFirst, if_neg hp] at h
      rcases List.mem_cons.1 h with h | h
      · subst h; exact ⟨List.mem_cons_self x rest, hp⟩
      · obtain ⟨h1, h2⟩ := ih (p :: seen) h
        exact ⟨List.mem_cons_of_mem p h1, fun hx => h2 (List.mem_cons_of_mem p hx)⟩

lemma dedupFirst_nodup (seen l : List String) : (dedupFirst seen l).Nodup := by
  induction l generalizing seen with
  | nil => simp [dedupFirst]
  | cons p rest ih =>
    by_cases hp : p ∈ seen
    · rw [dedupFirst, if_pos hp]; exact ih seen
    · rw [dedupFirst, if_neg hp]
      refine List.nodup_cons.2 ⟨?_, ih (p :: seen)⟩
      intro hmem
      exact (mem_dedupFirst (p :: seen) rest hmem).2 (List.mem_cons_self p seen)

lemma dedupFirst_congr (l seen seen' : List String)
    (h : ∀ x, x ∈ seen ↔ x ∈ seen') :
    dedupFirst seen l = dedupFirst seen' l := by
  induction l generalizing seen seen' with
  | nil => rfl
  | cons p rest ih =>
    by_cases hp : p ∈ seen
    · rw [dedupFirst, if_pos hp, dedupFirst, if_pos ((h p).1 hp)]
      exact ih seen seen' h
    · rw [dedupFirst, if_neg hp, dedupFirst, if_neg (fun hx => hp ((h p).2 hx))]
      refine congrArg (p :: ·) (ih (p :: seen) (p :: seen') fun x => ?_)
      simp [h x]

lemma dedupFirst_cons_seen (l : List String) (a : String) (seen : List String) :
    dedupFirst (a :: seen) l = (dedupFirst seen l).filter (fun q => q != a) := by
  induction l generalizing seen with
  | nil => rfl
  | cons p rest ih =>
    by_cases hpa : p = a
    · subst hpa
      by_cases hp : p ∈ seen
      · rw [dedupFirst, if_pos (List.mem_cons_of_mem p hp), dedupFirst, if_pos hp]
        exact ih seen
      · rw [dedupFirst, if_pos (List.mem_cons_self p seen), dedupFirst, if_neg hp,
          List.filter_cons]
        rw [if_neg (by simp)]
        refine Eq.symm (List.filter_eq_self.2 fun x hx => ?_)
        have hxs := (mem_dedupFirst (p :: seen) rest hx).2
        have hxp : x ≠ p := fun he => hxs (he ▸ List.mem_cons_self p seen)
        simpa using hxp
    · by_cases hp : p ∈ seen
      · have hp' : p ∈ a :: seen := List.mem_cons_of_mem a hp
        rw [dedupFirst, if_pos hp', dedupFirst, if_pos hp]
        exact ih seen
      · have hp' : p ∉ a :: seen := by
          intro h
          rcases List.mem_cons.1 h with h | h
          · exact hpa h
          · exact hp h
        rw [dedupFirst, if_neg hp', dedupFirst, if_neg hp]
        rw [List.filter_cons]
        have hbp : (p != a) = true := by simpa using hpa
        rw [if_pos (by simp [hbp])]
        refine congrArg (p :: ·) ?_
        exact (dedupFirst_congr rest (p :: a :: seen) (a :: p :: seen) (by intro x; simp; tauto)).trans
          (ih (p :: seen))

lemma dedupFirst_of_nodup (l seen : List String) (h1 : l.Nodup)
    (h2 : ∀ x ∈ l, x ∉ seen) : dedupFirst seen l = l := by
  induction l generalizing seen with
  | nil => rfl
  | cons p rest ih =>
    have hp : p ∉ seen := h2 p (List.mem_cons_self p rest)
    rw [dedupFirst, if_neg hp]
    refine congrArg (p :: ·) (ih (p :: seen) (List.nodup_cons.1 h1).2 fun x hx => ?_)
    intro hmem
    rcases List.mem_cons.1 hmem with h | h
    · exact (List.nodup_cons.1 h1).1 (h ▸ hx)
    · exact h2 x (List.mem_cons_of_mem p hx) h

lemma mem_normalize_canon_fixed {x : String} (l : List String) (h : x ∈ normalize l) :
    canon x = x := by
  have hx : x ∈ l.map canon := (mem_dedupFirst [] (l.map canon) h).1
  obtain ⟨y, _, hy⟩ := List.mem_map.1 hx
  rw [← hy, canon_idem]

lemma normalize_nodup (l : List String) : (normalize l).Nodup :=
  dedupFirst_nodup [] (l.map canon)

lemma pairwise_canon_of_nodup (l : List String) (h1 : l.Nodup)
    (h2 : ∀ x ∈ l, canon x = x) :
    l.Pairwise (fun a b => canon a ≠ canon b) := by
  induction l with
  | nil => exact List.Pairwise.nil
  | cons a rest ih =>
    obtain ⟨ha, hrest⟩ := List.nodup_cons.1 h1
    refine List.Pairwise.cons (fun b hb heq => ?_)
      (ih hrest fun x hx => h2 x (List.mem_cons_of_mem a hx))
    have hca : canon a = a := h2 a (List.mem_cons_self a rest)
    have hcb : canon b = b := h2 b (List.mem_cons_of_mem a hb)
    rw [hca, hcb] at heq
    exact ha (heq ▸ hb)

lemma normalize_pairwise_canon (l : List String) :
    (normalize l).Pairwise (fun a b => canon a ≠ canon b) :=
  pairwise_canon_of_nodup (normalize l) (normalize_nodup l)
    (fun _ hx => mem_normalize_canon_fixed l hx)

/-- Claim C1: whenever the external initialization succeeds (its return code
is not negative), the unit-paths verb writes each entry of the resolved
search path as exactly one line to standard output, in order, with nothing
added, and returns exit status 0. -/
theorem verb_unit_paths_success (r : Int) (paths : LookupPaths) (h : ¬ r < 0) :
    (verb_unit_paths r paths).stdout = paths.search_path
    ∧ (verb_unit_paths r paths).exitCode = 0 := by
  simp [verb_unit_paths, if_neg h]

/-- Witness for C1 at return code 0 and a one-entry search path. -/
theorem verb_unit_paths_success_witness :
    ¬ (0 : Int) < 0
    ∧ ((verb_unit_paths 0 (LookupPaths.mk ["/etc/units/system"])).stdout
        = ["/etc/units/system"]
       ∧ (verb_unit_paths 0 (LookupPaths.mk ["/etc/units/system"])).exitCode = 0) :=
  ⟨by decide, verb_unit_paths_success 0 (LookupPaths.mk ["/etc/units/system"]) (by decide)⟩

/-- Claim C2: for every scope, root, and environment, the sequence returned
by resolve contains no duplicates by canonical form: distinct positions hold
entries with distinct canonicalizations. -/
theorem resolve_no_canonical_duplicates (s : Scope) (root : String) (e : Env) :
    (resolve s root e).Pairwise (fun a b => canon a ≠ canon b) := by
  rcases h : (parseOverrides e).replace with _ | l
  · simp only [resolve, h]
    exact normalize_pairwise_canon _
  · simp only [resolve, h]
    exact normalize_pairwise_canon _

/-- Claim C3: a set, non-empty replace override makes resolve return exactly
the normalized split of the variable's value, independent of scope and root
(the enumerator is not consulted); at value "/a:/b" the result is exactly
["/a", "/b"]. -/
theorem resolve_replace_override (s : Scope) (root : String) (e : Env) (v : String)
    (hset : e.replaceVar = some v) (hne : v ≠ "") :
    resolve s root e = normalize (splitPathList v)
    ∧ (v = "/a:/b" → resolve s root e = ["/a", "/b"]) := by
  have hrep : (parseOverrides e).replace = some (splitPathList v) := by
    simp [parseOverrides, hset, hne]
  constructor
  · simp [resolve, hrep]
  · intro hv
    subst hv
    simp only [resolve, hrep]
    rfl

/-- Witness for C3 at the environment whose replace variable is "/a:/b". -/
theorem resolve_replace_override_witness :
    replaceEnv.replaceVar = some "/a:/b" ∧ ("/a:/b" : String) ≠ ""
    ∧ (resolve .System "/" replaceEnv = normalize (splitPathList "/a:/b")
       ∧ ("/a:/b" = "/a:/b" → resolve .System "/" replaceEnv = ["/a", "/b"])) :=
  ⟨rfl, by decide, resolve_replace_override .System "/" replaceEnv "/a:/b" rfl (by decide)⟩

/-- Claim C4: with the replace variable unset and the extra variable set, the
extra entries are prepended ahead of the whole enumeration without triggering
replace mode; at value "/x" the result is "/x" followed by the full normal
enumeration deduplicated against "/x". -/
theorem resolve_extra_override (s : Scope) (root : String) (e : Env) (v : String)
    (hrep : e.replaceVar = none) (hx : e.extraVar = some v) :
    resolve s root e
      = normalize (splitPathList v ++ (enumerate s root e).map (fun c => c.path))
    ∧ (v = "/x" → resolve s root e
        = "/x" :: (normalize ((enumerate s root e).map (fun c => c.path))).filter
            (fun q => q != "/x")) := by
  have h1 : (parseOverrides e).replace = none := by simp [parseOverrides, hrep]
  have h2 : (parseOverrides e).extra = splitPathList v := by simp [parseOverrides, hx]
  constructor
  · simp [resolve, h1, h2]
  · intro hv
    subst hv
    have hsplit : splitPathList "/x" = ["/x"] := rfl
    have hcx : canon "/x" = "/x" := by decide
    have key : ∀ L : List String, dedupFirst [] ("/x" :: L)
        = "/x" :: (dedupFirst [] L).filter (fun q => q != "/x") := by
      intro L
      rw [dedupFirst, if_neg (List.not_mem_nil _), dedupFirst_cons_seen]
    calc resolve s root e
        = normalize (["/x"] ++ (enumerate s root e).map (fun c => c.path)) := by
          simp [resolve, h1, h2, hsplit]
      _ = dedupFirst [] ("/x" :: ((enumerate s root e).map (fun c => c.path)).map canon) := by
          simp [normalize, hcx]
      _ = "/x" :: (dedupFirst [] (((enumerate s root e).map (fun c => c.path)).map canon)).filter
            (fun q => q != "/x") := key _
      _ = "/x" :: (normalize ((enumerate s root e).map (fun c => c.path))).filter
            (fun q => q != "/x") := rfl

/-- Witness for C4 at the environment whose extra variable is "/x". -/
theorem resolve_extra_override_witness :
    extraEnv.replaceVar = none ∧ extraEnv.extraVar = some "/x"
    ∧ (resolve .System "" extraEnv
        = normalize (splitPathList "/x" ++ (enumerate .System "" extraEnv).map (fun c => c.path))
       ∧ ("/x" = "/x" → resolve .System "" extraEnv
           = "/x" :: (normalize ((enumerate .System "" extraEnv).map (fun c => c.path))).filter
               (fun q => q != "/x"))) :=
  ⟨rfl, rfl, resolve_extra_override .System "" extraEnv "/x" rfl rfl⟩

/-- Claim C5: when the external initialization fails with a negative code,
the verb logs a descriptive error, returns that negative (hence non-zero)
code, and prints no search path. -/
theorem verb_unit_paths_failure (r : Int) (paths : LookupPaths) (h : r < 0) :
    (verb_unit_paths r paths).loggedError = true
    ∧ (verb_unit_paths r paths).exitCode = r
    ∧ (verb_unit_paths r paths).exitCode < 0
    ∧ (verb_unit_paths r paths).stdout = [] := by
  simp [verb_unit_paths, if_pos h, h]

/-- Witness for C5 at return code -2. -/
theorem verb_unit_paths_failure_witness :
    (-2 : Int) < 0
    ∧ ((verb_unit_paths (-2) (LookupPaths.mk ["/a"])).loggedError = true
       ∧ (verb_unit_paths (-2) (LookupPaths.mk ["/a"])).exitCode = -2
       ∧ (verb_unit_paths (-2) (LookupPaths.mk ["/a"])).exitCode < 0
       ∧ (verb_unit_paths (-2) (LookupPaths.mk ["/a"])).stdout = []) :=
  ⟨by decide, verb_unit_paths_failure (-2) (LookupPaths.mk ["/a"]) (by decide)⟩

/-- Claim C6: resolve is deterministic — equal scope, root, and environment
inputs give equal outputs. -/
theorem resolve_deterministic (s s' : Scope) (root root' : String) (e e' : Env)
    (hs : s = s') (hr : root = root') (he : e = e') :
    resolve s root e = resolve s' root' e' := by
  subst hs; subst hr; subst he; rfl

/-- Witness for C6 at the System scope with the empty environment. -/
theorem resolve_deterministic_witness :
    Scope.System = Scope.System ∧ ("/" : String) = "/" ∧ emptyEnv = emptyEnv
    ∧ resolve .System "/" emptyEnv = resolve .System "/" emptyEnv :=
  ⟨rfl, rfl, rfl, resolve_deterministic .System .System "/" "/" emptyEnv emptyEnv rfl rfl rfl⟩

/-- Claim C7: resolve is total — it is a function returning a list for every
scope, root, and environment; normalize of empty input is the empty set, an
empty replace value behaves exactly like an unset one, and a
separators-only extra value contributes no directories. -/
theorem resolve_total (s : Scope) (root : String) (e : Env) :
    normalize [] = []
    ∧ resolve s root (Env.mk (some "") e.extraVar e.configHome e.home)
        = resolve s root (Env.mk none e.extraVar e.configHome e.home)
    ∧ resolve s root (Env.mk e.replaceVar (some "::") e.configHome e.home)
        = resolve s root (Env.mk e.replaceVar none e.configHome e.home) := by
  refine ⟨rfl, rfl, ?_⟩
  rcases e.replaceVar with _ | v
  · rfl
  · rfl

/-- Claim C8: normalize is idempotent — a list already in canonical form
with no duplicates is returned unchanged. -/
theorem normalize_idempotent (l : List String) (h1 : ∀ p ∈ l, canon p = p)
    (h2 : l.Nodup) : normalize l = l := by
  have hmap : ∀ m : List String, (∀ p ∈ m, canon p = p) → m.map canon = m := by
    intro m hm
    induction m with
    | nil => rfl
    | cons p rest ih =>
      rw [List.map_cons, hm p (List.mem_cons_self p rest),
        ih (fun q hq => hm q (List.mem_cons_of_mem p hq))]
  unfold normalize
  rw [hmap l h1]
  exact dedupFirst_of_nodup l [] h2 (fun x _ => List.not_mem_nil x)

/-- Witness for C8 at the canonical duplicate-free list ["/a", "/b"]. -/
theorem normalize_idempotent_witness :
    (∀ p ∈ (["/a", "/b"] : List String), canon p = p)
    ∧ (["/a", "/b"] : List String).Nodup
    ∧ normalize ["/a", "/b"] = ["/a", "/b"] :=
  ⟨by decide, by decide, normalize_idempotent ["/a", "/b"] (by decide) (by decide)⟩

/-- Claim C9: on both exit paths of the verb — early error return and
successful return after printing — the owned structure is released exactly
once by the scoped cleanup. -/
theorem verb_unit_paths_cleanup_once (r : Int) (paths : LookupPaths) :
    (verb_unit_paths r paths).freeCount = 1 := by
  unfold verb_unit_paths
  split <;> rfl

/-- Claim C10: when initialization succeeds with an empty search path, the
verb prints nothing and still returns 0. -/
theorem verb_unit_paths_empty_success (r : Int) (paths : LookupPaths)
    (h1 : ¬ r < 0) (h2 : paths.search_path = []) :
    (verb_unit_paths r paths).stdout = [] ∧ (verb_unit_paths r paths).exitCode = 0 := by
  simp [verb_unit_paths, if_neg h1, h2]

/-- Witness for C10 at return code 0 and the empty search path. -/
theorem verb_unit_paths_empty_success_witness :
    ¬ (0 : Int) < 0 ∧ (LookupPaths.mk []).search_path = []
    ∧ ((verb_unit_paths 0 (LookupPaths.mk [])).stdout = []
       ∧ (verb_unit_paths 0 (LookupPaths.mk [])).exitCode = 0) :=
  ⟨by decide, rfl, verb_unit_paths_empty_success 0 (LookupPaths.mk []) (by decide) rfl⟩

end UnitPaths
